import Mathlib

/-!
Shallow embedding of the `tab-complete` repository (lib/models.py, lib/utils.py,
src/main.py) and proofs of the spec claims about it.

Modelling conventions:
* Python numbers (`price`, currency amounts) are modelled as exact rationals `ℚ`.
  Every concrete value in the spec and the tests is an exact decimal, and none of
  them sits on a rounding tie, so the exact-decimal model and IEEE doubles agree
  on all inputs the claims mention.
* Python strings are Lean `String`s; character-level operations work on `.data`.
  `str.lower()` is modelled by `Char.toLower`, which matches Python on the ASCII
  range exercised by the spec.
* Python's `f"{x:,.2f}"` formatting rounds to two fraction digits with ties to
  even and inserts comma thousands separators; `pyCommaFixed2` implements that.
* The dict returned by `process_order` has a fixed key set, so it is modelled as
  a structure `OrderSummary` with one field per key.
-/

namespace TabComplete

/-- `User` dataclass from lib/models.py.  The `created_at` timestamp defaults to
`None` (the `__post_init__` fill-in with the current time is irrelevant to every
claim and is not modelled). -/
structure User where
  id : Int
  name : String
  email : String
  created_at : Option Nat := none
deriving DecidableEq

/-- `Product` dataclass from lib/models.py. -/
structure Product where
  id : Int
  name : String
  price : ℚ
  description : String := ""
  in_stock : Bool := true
deriving DecidableEq

/-- `Order` dataclass from lib/models.py. -/
structure Order where
  id : Int
  user : User
  products : List Product
  status : String := "pending"

/-- `Order.total` property: `sum(p.price for p in self.products)`. -/
def Order.total (o : Order) : ℚ :=
  (o.products.map (fun p => p.price)).sum

/-- `calculate_total` from lib/utils.py: `sum(p.price for p in products)`. -/
def calculate_total (products : List Product) : ℚ :=
  (products.map (fun p => p.price)).sum

/-- Round a rational to the nearest integer, ties to even — the rounding used by
Python's fixed-point string formatting. -/
def rhe (q : ℚ) : Int :=
  let n := q.num
  let d : Int := (q.den : Int)
  let q0 := n.fdiv d
  let r := n.fmod d
  if 2 * r < d then q0
  else if d < 2 * r then q0 + 1
  else if q0 % 2 = 0 then q0 else q0 + 1

/-- Split a digit list (least significant digit first) into groups of three. -/
def chunk3 : List Char → List (List Char)
  | a :: b :: c :: tail@(_ :: _) => [a, b, c] :: chunk3 tail
  | l => [l]

/-- Insert comma thousands separators into a most-significant-first digit list. -/
def commaGrouped (ds : List Char) : List Char :=
  List.intercalate [','] (((chunk3 ds.reverse).map List.reverse).reverse)

/-- Python `format(x, ",.2f")` on exact decimal values: round to two fraction
digits (ties to even), comma-group the integer part, render the sign. -/
def pyCommaFixed2 (a : ℚ) : String :=
  let m := (rhe (100 * a)).natAbs
  let sign : List Char := if a < 0 then ['-'] else []
  String.mk (sign ++ commaGrouped (Nat.toDigits 10 (m / 100)) ++
    '.' :: [Nat.digitChar (m / 10 % 10), Nat.digitChar (m % 10)])

/-- `format_currency` from lib/utils.py: `f"${amount:,.2f}"`. -/
def format_currency (amount : ℚ) : String :=
  "$" ++ pyCommaFixed2 amount

/-- Python `str.split(sep)` for a one-character separator, on character lists:
`pySplit c s` lists the (possibly empty) segments of `s` between occurrences of
`c`; it always returns at least one segment. -/
def pySplit (sep : Char) : List Char → List (List Char)
  | [] => [[]]
  | a :: rest =>
    if a = sep then [] :: pySplit sep rest
    else
      match pySplit sep rest with
      | [] => [[a]]
      | g :: gs => (a :: g) :: gs

/-- `validate_email` from lib/utils.py:
`"@" in email and "." in email.split("@")[-1]`. -/
def validate_email (email : String) : Bool :=
  email.data.contains '@' && ((pySplit '@' email.data).getLastD []).contains '.'

/-- Python `str.strip(bad)` for a one-character strip set: remove every leading
and trailing occurrence of `bad`. -/
def pyStrip (bad : Char) (l : List Char) : List Char :=
  ((l.dropWhile (fun c => c == bad)).reverse.dropWhile (fun c => c == bad)).reverse

/-- `slugify` from lib/utils.py: `text.lower().replace(" ", "-").strip("-")`. -/
def slugify (text : String) : String :=
  String.mk (pyStrip '-' ((text.data.map Char.toLower).map
    (fun c => if c = ' ' then '-' else c)))

/-- The dict returned by `process_order`, one field per key. -/
structure OrderSummary where
  user_id : Int
  user_name : String
  subtotal : String
  tax : String
  total : String
  items : List String
deriving DecidableEq

/-- `process_order` from src/main.py. -/
def process_order (user : User) (products : List Product) : OrderSummary :=
  let subtotal := calculate_total products
  let tax := subtotal * 0.08
  let total := subtotal + tax
  { user_id := user.id
    user_name := user.name
    subtotal := format_currency subtotal
    tax := format_currency tax
    total := format_currency total
    items := products.map (fun p => p.name) }

/-- C1: `process_order u ps` returns the mapping whose `user_id` is `u.id`,
`user_name` is `u.name`, `subtotal` is the formatted sum of the prices, `tax`
the formatted numeric sum times 0.08, `total` the formatted numeric sum plus
the numeric tax (added before formatting), and `items` the product names in
order with duplicates preserved. -/
theorem process_order_spec (u : User) (ps : List Product) :
    process_order u ps =
      { user_id := u.id
        user_name := u.name
        subtotal := format_currency (calculate_total ps)
        tax := format_currency (calculate_total ps * 0.08)
        total := format_currency (calculate_total ps + calculate_total ps * 0.08)
        items := ps.map (fun p => p.name) } := rfl

/-- C2: on Alice with the Widget and Gadget products, `process_order` yields
subtotal "$79.98", tax "$6.40" (79.98 × 0.08 = 6.3984, rounded to two fraction
digits by the currency formatting), total "$86.38", and
items ["Widget", "Gadget"]. -/
theorem process_order_alice_example :
    process_order { id := 1, name := "Alice", email := "alice@example.com" }
      [{ id := 101, name := "Widget", price := 29.99 },
       { id := 102, name := "Gadget", price := 49.99 }] =
      { user_id := 1
        user_name := "Alice"
        subtotal := "$79.98"
        tax := "$6.40"
        total := "$86.38"
        items := ["Widget", "Gadget"] } := by
  with_unfolding_all decide

/-- C3: `calculate_total` returns the arithmetic sum of the prices, 0 on the
empty list and `p.price` on a singleton `[p]`; no rounding is applied. -/
theorem calculate_total_spec :
    (∀ ps : List Product, calculate_total ps = (ps.map (fun p => p.price)).sum) ∧
    calculate_total [] = 0 ∧
    ∀ p : Product, calculate_total [p] = p.price := by
  refine ⟨fun ps => rfl, rfl, fun p => ?_⟩
  simp [calculate_total]

/-- C4: `calculate_total` is order-independent: permuting the product list does
not change the sum. -/
theorem calculate_total_perm_invariant (ps qs : List Product) (h : ps.Perm qs) :
    calculate_total ps = calculate_total qs :=
  List.Perm.sum_eq (h.map (fun p => p.price))

/-- Witness for C4 at a concrete two-element swap. -/
theorem calculate_total_perm_invariant_witness :
    calculate_total
        [{ id := 1, name := "A", price := 10 }, { id := 2, name := "B", price := 20 }] =
      calculate_total
        [{ id := 2, name := "B", price := 20 }, { id := 1, name := "A", price := 10 }] :=
  calculate_total_perm_invariant _ _ (List.Perm.swap _ _ _)

/-- C5: `format_currency` returns "$" followed by the amount rendered with
comma thousands separators and exactly two fraction digits; in particular
`format_currency 100 = "$100.00"`, `format_currency 1234.56 = "$1,234.56"`,
and `format_currency 0 = "$0.00"`. -/
theorem format_currency_spec :
    (∀ a : ℚ, format_currency a = "$" ++ pyCommaFixed2 a) ∧
    format_currency 100 = "$100.00" ∧
    format_currency 1234.56 = "$1,234.56" ∧
    format_currency 0 = "$0.00" := by
  refine ⟨fun a => rfl, ?_, ?_, ?_⟩ <;> with_unfolding_all decide

/-- `pySplit` always produces at least one segment. -/
theorem pySplit_ne_nil (c : Char) (s : List Char) : pySplit c s ≠ [] := by
  cases s with
  | nil => simp [pySplit]
  | cons a rest =>
    simp only [pySplit]
    split
    · simp
    · split <;> simp

/-- Splitting a list that does not contain the separator gives it back whole. -/
theorem pySplit_of_not_mem {c : Char} {s : List Char} (h : c ∉ s) : pySplit c s = [s] := by
  induction s with
  | nil => rfl
  | cons a rest ih =>
    simp only [List.mem_cons, not_or] at h
    obtain ⟨hne, hrest⟩ := h
    simp only [pySplit]
    rw [if_neg fun he => hne he.symm, ih hrest]

/-- Splitting a list that contains the separator gives at least two segments. -/
theorem two_le_length_pySplit {c : Char} {s : List Char} (h : c ∈ s) :
    2 ≤ (pySplit c s).length := by
  induction s with
  | nil => cases h
  | cons a rest ih =>
    simp only [pySplit]
    by_cases hac : a = c
    · rw [if_pos hac]
      have h1 : 0 < (pySplit c rest).length :=
        List.length_pos.mpr (pySplit_ne_nil c rest)
      simp only [List.length_cons]
      omega
    · rw [if_neg hac]
      have hmem : c ∈ rest := by
        rcases List.mem_cons.mp h with h1 | h1
        · exact absurd h1.symm hac
        · exact h1
      have h2 := ih hmem
      rcases hsp : pySplit c rest with _ | ⟨g, gs⟩
      · exact absurd hsp (pySplit_ne_nil c rest)
      · rw [hsp] at h2
        simp only [List.length_cons] at h2 ⊢
        omega

/-- The last segment of `pySplit c (pre ++ c :: post)` is `post` whenever `post`
has no further separator: Python's `s.split(c)[-1]` is the substring after the
last separator. -/
theorem getLastD_pySplit {c : Char} (pre post : List Char) (h : c ∉ post) :
    (pySplit c (pre ++ c :: post)).getLastD [] = post := by
  induction pre with
  | nil =>
    have hstep : pySplit c (c :: post) = [] :: pySplit c post := by
      simp [pySplit]
    rw [List.nil_append, hstep, pySplit_of_not_mem h]
    rfl
  | cons a pre ih =>
    simp only [List.cons_append, pySplit]
    by_cases hac : a = c
    · rw [if_pos hac]
      rw [List.getLastD_cons]
      rcases hsp : pySplit c (pre ++ c :: post) with _ | ⟨g, gs⟩
      · exact absurd hsp (pySplit_ne_nil _ _)
      · rw [hsp] at ih
        rw [List.getLastD_cons] at ih ⊢
        exact ih
    · rw [if_neg hac]
      have hmem : c ∈ pre ++ c :: post := by simp
      have hlen := two_le_length_pySplit hmem
      rcases hsp : pySplit c (pre ++ c :: post) with _ | ⟨g, gs⟩
      · exact absurd hsp (pySplit_ne_nil _ _)
      · rw [hsp] at ih hlen
        cases gs with
        | nil => simp at hlen
        | cons g2 gs2 =>
          rw [List.getLastD_cons, List.getLastD_cons] at ih
          rw [List.getLastD_cons, List.getLastD_cons]
          exact ih

/-- Any list containing `c` splits as `pre ++ c :: post` with `post` free of `c`
(the decomposition at the last occurrence of `c`). -/
theorem exists_after_last {c : Char} {s : List Char} (h : c ∈ s) :
    ∃ pre post, s = pre ++ c :: post ∧ c ∉ post := by
  induction s with
  | nil => cases h
  | cons a rest ih =>
    by_cases hr : c ∈ rest
    · obtain ⟨pre, post, heq, hpost⟩ := ih hr
      exact ⟨a :: pre, post, by rw [heq]; rfl, hpost⟩
    · have hac : a = c := by
        rcases List.mem_cons.mp h with h1 | h1
        · exact h1.symm
        · exact absurd h1 hr
      exact ⟨[], rest, by rw [hac]; rfl, hr⟩

/-- C6: `validate_email s` is true exactly when `s` contains an '@' and the
substring after the last '@' contains a '.'; in particular
`validate_email "user@"` is false, the part after the '@' being empty. -/
theorem validate_email_spec :
    (∀ s : String, validate_email s = true ↔
      ('@' ∈ s.data ∧ ∃ pre post : List Char,
        s.data = pre ++ '@' :: post ∧ '@' ∉ post ∧ '.' ∈ post)) ∧
    validate_email "user@" = false := by
  constructor
  · intro s
    simp only [validate_email, Bool.and_eq_true, List.elem_iff]
    constructor
    · rintro ⟨h1, h2⟩
      obtain ⟨pre, post, heq, hpost⟩ := exists_after_last h1
      rw [heq, getLastD_pySplit pre post hpost] at h2
      exact ⟨h1, pre, post, heq, hpost, h2⟩
    · rintro ⟨h1, pre, post, heq, hpost, hdot⟩
      refine ⟨h1, ?_⟩
      rw [heq, getLastD_pySplit pre post hpost]
      exact hdot
  · decide

/-- C7: `slugify` lowercases, replaces every space with a hyphen, then strips
leading and trailing hyphens; it does not collapse internal repeated hyphens
and does not remove punctuation. In particular
`slugify "Hello World" = "hello-world"` and `slugify " Test " = "test"`. -/
theorem slugify_spec :
    (∀ t : String, slugify t =
      String.mk (pyStrip '-' ((t.data.map Char.toLower).map
        (fun c => if c = ' ' then '-' else c)))) ∧
    slugify "Hello World" = "hello-world" ∧
    slugify " Test " = "test" ∧
    slugify "a  b" = "a--b" ∧
    slugify "No, punct!" = "no,-punct!" := by
  refine ⟨fun t => rfl, ?_, ?_, ?_, ?_⟩ <;> decide

/-- C8: `Order.total` is the plain sum of the order's product prices — equal to
`calculate_total o.products` and tax-free — whereas `process_order` computes the
tax-inclusive numeric total `calculate_total ps + calculate_total ps * 0.08`;
the two agree exactly when the sum of prices is 0. -/
theorem order_total_vs_process_order (o : Order) :
    Order.total o = calculate_total o.products ∧
    (Order.total o = calculate_total o.products + calculate_total o.products * 0.08 ↔
      calculate_total o.products = 0) := by
  refine ⟨rfl, ?_⟩
  have h : Order.total o = calculate_total o.products := rfl
  rw [h]
  constructor
  · intro he
    have h8 : calculate_total o.products * 0.08 = 0 := by linarith
    have hne : (0.08 : ℚ) ≠ 0 := by norm_num
    rcases mul_eq_zero.mp h8 with h1 | h2
    · exact h1
    · exact absurd h2 hne
  · intro h0
    rw [h0]
    norm_num

/-- C9: the embedded operations are deterministic pure functions of their
arguments: equal arguments give equal results, and `process_order` reads only
`id` and `name` from the user (in particular two users equal on those fields
give identical summaries, whatever their email or timestamp). Statelessness,
absence of I/O and absence of mutation hold by the functional embedding, which
is faithful to the source: the Python bodies contain no assignment to their
arguments and no I/O call. -/
theorem pure_function_determinism :
    (∀ u1 u2 : User, ∀ ps1 ps2 : List Product, u1 = u2 → ps1 = ps2 →
        process_order u1 ps1 = process_order u2 ps2) ∧
    (∀ u1 u2 : User, ∀ ps : List Product, u1.id = u2.id → u1.name = u2.name →
        process_order u1 ps = process_order u2 ps) ∧
    (∀ ps1 ps2 : List Product, ps1 = ps2 → calculate_total ps1 = calculate_total ps2) ∧
    (∀ a1 a2 : ℚ, a1 = a2 → format_currency a1 = format_currency a2) ∧
    (∀ s1 s2 : String, s1 = s2 → validate_email s1 = validate_email s2) ∧
    (∀ s1 s2 : String, s1 = s2 → slugify s1 = slugify s2) := by
  refine ⟨?_, ?_, ?_, ?_, ?_, ?_⟩
  · intro u1 u2 ps1 ps2 hu hp
    rw [hu, hp]
  · intro u1 u2 ps hid hname
    simp only [process_order, hid, hname]
  · intro ps1 ps2 h
    rw [h]
  · intro a1 a2 h
    rw [h]
  · intro s1 s2 h
    rw [h]
  · intro s1 s2 h
    rw [h]

/-- Witness for C9: two users equal in `id` and `name` but with different
emails produce the same summary. -/
theorem pure_function_determinism_witness :
    process_order { id := 1, name := "Alice", email := "alice@example.com" } [] =
      process_order { id := 1, name := "Alice", email := "a@b.c" } [] :=
  pure_function_determinism.2.1 _ _ [] rfl rfl

/-- `Char.toLower` is the identity outside the uppercase ASCII range. -/
theorem toLower_fix (c : Char) (h : ¬(c.toNat ≥ 65 ∧ c.toNat ≤ 90)) : Char.toLower c = c := by
  simp only [Char.toLower]
  rw [if_neg h]

/-- `Char.toLower` shifts an uppercase ASCII letter down into lowercase. -/
theorem toLower_upper (c : Char) (h : c.toNat ≥ 65 ∧ c.toNat ≤ 90) :
    Char.toLower c = Char.ofNat (c.toNat + 32) := by
  simp only [Char.toLower]
  rw [if_pos h]

/-- `Char.ofNat` on a valid scalar value round-trips through `toNat`. -/
theorem toNat_ofNat_valid {n : Nat} (h : n.isValidChar) : (Char.ofNat n).toNat = n := by
  rw [Char.ofNat, dif_pos h]
  rfl

/-- Lowercasing is idempotent on characters. -/
theorem toLower_toLower (c : Char) : Char.toLower (Char.toLower c) = Char.toLower c := by
  by_cases h : c.toNat ≥ 65 ∧ c.toNat ≤ 90
  · rw [toLower_upper c h]
    have hval : (c.toNat + 32).isValidChar := Or.inl (by omega)
    apply toLower_fix
    rw [toNat_ofNat_valid hval]
    omega
  · rw [toLower_fix c h, toLower_fix c h]

/-- `dropWhile` is idempotent. -/
theorem dropWhile_dropWhile {α : Type} (p : α → Bool) (l : List α) :
    (l.dropWhile p).dropWhile p = l.dropWhile p := by
  induction l with
  | nil => rfl
  | cons a t ih =>
    by_cases h : p a
    · rw [List.dropWhile_cons_of_pos h]
      exact ih
    · rw [List.dropWhile_cons_of_neg h, List.dropWhile_cons_of_neg h]

/-- A list fixed by `dropWhile p` has a head on which `p` fails. -/
theorem head_false_of_dropWhile_self {α : Type} {p : α → Bool} {l : List α}
    (h : l.dropWhile p = l) : ∀ a t, l = a :: t → p a = false := by
  intro a t he
  subst he
  by_cases hp : p a
  · rw [List.dropWhile_cons_of_pos hp] at h
    have hle : (t.dropWhile p).length ≤ t.length := (List.dropWhile_sublist p).length_le
    rw [h] at hle
    simp at hle
  · simpa using hp

/-- Removing a trailing run from a list already free of a leading run leaves a
list still free of a leading run. -/
theorem dropWhile_trailing_trimmed {α : Type} {p : α → Bool} {A : List α}
    (h : A.dropWhile p = A) :
    ((A.reverse.dropWhile p).reverse).dropWhile p = (A.reverse.dropWhile p).reverse := by
  cases A with
  | nil => rfl
  | cons a t =>
    have hpa : p a = false := head_false_of_dropWhile_self h a t rfl
    rw [List.reverse_cons, List.dropWhile_append]
    by_cases he : (t.reverse.dropWhile p).isEmpty
    · rw [if_pos he]
      simp [List.dropWhile_cons, hpa]
    · rw [if_neg he]
      have hrev : ((t.reverse.dropWhile p) ++ [a]).reverse
          = a :: (t.reverse.dropWhile p).reverse := by
        simp
      rw [hrev, List.dropWhile_cons_of_neg (by simp [hpa])]

/-- Python-style two-sided strip is idempotent. -/
theorem pyStrip_idem (bad : Char) (l : List Char) :
    pyStrip bad (pyStrip bad l) = pyStrip bad l := by
  have hAA : ((l.dropWhile (fun c => c == bad)).dropWhile (fun c => c == bad))
      = l.dropWhile (fun c => c == bad) := dropWhile_dropWhile _ l
  unfold pyStrip
  rw [dropWhile_trailing_trimmed hAA, List.reverse_reverse, dropWhile_dropWhile]

/-- Characters surviving `pyStrip` already occur in the input. -/
theorem mem_of_mem_pyStrip {bad x : Char} {l : List Char} (h : x ∈ pyStrip bad l) :
    x ∈ l := by
  unfold pyStrip at h
  rw [List.mem_reverse] at h
  have h1 := (List.dropWhile_sublist _).subset h
  rw [List.mem_reverse] at h1
  exact (List.dropWhile_sublist _).subset h1

/-- A map that fixes every member of a list fixes the list. -/
theorem map_id_of_mem {α : Type} {f : α → α} {l : List α} (h : ∀ a ∈ l, f a = a) :
    l.map f = l :=
  (List.map_congr_left h).trans (List.map_id l)

/-- Every character produced by the lower-then-replace phase of `slugify` is
fixed by lowercasing and is not a space. -/
theorem slug_chars {t : List Char} {x : Char}
    (h : x ∈ (t.map Char.toLower).map (fun c => if c = ' ' then '-' else c)) :
    Char.toLower x = x ∧ ¬ x = ' ' := by
  simp only [List.map_map, List.mem_map, Function.comp] at h
  obtain ⟨c, _, hx⟩ := h
  by_cases hsp : Char.toLower c = ' '
  · rw [if_pos hsp] at hx
    subst hx
    exact ⟨by decide, by decide⟩
  · rw [if_neg hsp] at hx
    subst hx
    exact ⟨toLower_toLower c, hsp⟩

/-- C10: `slugify` is idempotent — its output has no spaces and no leading or
trailing hyphens, and lowercasing an already-lowercase string changes
nothing. -/
theorem slugify_idempotent (t : String) : slugify (slugify t) = slugify t := by
  have hchars : ∀ x ∈ (slugify t).data, Char.toLower x = x ∧ ¬ x = ' ' := by
    intro x hx
    exact slug_chars (mem_of_mem_pyStrip hx)
  have h1 : (slugify t).data.map Char.toLower = (slugify t).data :=
    map_id_of_mem fun a ha => (hchars a ha).1
  have h2 : (slugify t).data.map (fun c => if c = ' ' then '-' else c) = (slugify t).data :=
    map_id_of_mem fun a ha => if_neg (hchars a ha).2
  show String.mk (pyStrip '-' (((slugify t).data.map Char.toLower).map
    (fun c => if c = ' ' then '-' else c))) = slugify t
  rw [h1, h2]
  show String.mk (pyStrip '-' (pyStrip '-' ((t.data.map Char.toLower).map
    (fun c => if c = ' ' then '-' else c)))) = slugify t
  rw [pyStrip_idem]
  rfl

end TabComplete
